import Mathlib

/-!
Verification of the data pipeline of `src/app.py` (Malaysia cost-of-living
dashboard).  The pandas operations of the script are embedded shallowly:

* a dataframe is a `List` of row structures;
* float64 values are idealised as exact rationals extended with the IEEE
  special values `+inf`, `-inf` and `NaN` (type `FV`); pandas' missing
  values are `NaN`, and `dropna` removes exactly the `NaN` rows;
* `sort_values` is modelled as a stable comparison sort (`isort`,
  insertion sort): pandas' multi-column sort uses a stable lexsort, and
  for the single-column sorts the model is stable as well;
* string comparison is code-point lexicographic (`strLt`), as in pandas.
-/

/-- An idealised float64 value: an exact rational, `+inf`, `-inf` or `NaN`. -/
inductive FV where
  | fin (q : ℚ)
  | pinf
  | ninf
  | nan
deriving DecidableEq

/-- `NaN` test; pandas' `dropna` drops exactly the `NaN` entries
(infinities are kept). -/
def FV.isNan : FV → Bool
  | .nan => true
  | _ => false

/-- IEEE-style division on idealised floats.  In particular
`a / 0 = ±inf` for `a ≠ 0` and `0 / 0 = NaN`. -/
def fvDiv : FV → FV → FV
  | .fin a, .fin b =>
      if b = 0 then (if a = 0 then .nan else if 0 < a then .pinf else .ninf)
      else .fin (a / b)
  | .nan, _ => .nan
  | _, .nan => .nan
  | .pinf, .pinf => .nan
  | .pinf, .ninf => .nan
  | .ninf, .pinf => .nan
  | .ninf, .ninf => .nan
  | .fin _, .pinf => .fin 0
  | .fin _, .ninf => .fin 0
  | .pinf, .fin b => if 0 ≤ b then .pinf else .ninf
  | .ninf, .fin b => if 0 ≤ b then .ninf else .pinf

/-- IEEE-style subtraction on idealised floats. -/
def fvSub : FV → FV → FV
  | .fin a, .fin b => .fin (a - b)
  | .nan, _ => .nan
  | _, .nan => .nan
  | .pinf, .pinf => .nan
  | .ninf, .ninf => .nan
  | .pinf, _ => .pinf
  | .ninf, _ => .ninf
  | _, .pinf => .ninf
  | _, .ninf => .pinf

/-- IEEE-style multiplication on idealised floats. -/
def fvMul : FV → FV → FV
  | .fin a, .fin b => .fin (a * b)
  | .nan, _ => .nan
  | _, .nan => .nan
  | .pinf, .pinf => .pinf
  | .pinf, .ninf => .ninf
  | .ninf, .pinf => .ninf
  | .ninf, .ninf => .pinf
  | .pinf, .fin b => if b = 0 then .nan else if 0 < b then .pinf else .ninf
  | .fin a, .pinf => if a = 0 then .nan else if 0 < a then .pinf else .ninf
  | .ninf, .fin b => if b = 0 then .nan else if 0 < b then .ninf else .pinf
  | .fin a, .ninf => if a = 0 then .nan else if 0 < a then .ninf else .pinf

/-- Comparison used when sorting idealised floats: the numeric order with
`-inf` at the bottom, `+inf` at the top and `NaN` sorted last
(pandas' `na_position = last`). -/
def fvLe : FV → FV → Bool
  | _, .nan => true
  | .nan, _ => false
  | .ninf, _ => true
  | _, .ninf => false
  | .fin a, .fin b => decide (a ≤ b)
  | _, .pinf => true
  | .pinf, _ => false

theorem fvLe_total (u v : FV) : fvLe u v = true ∨ fvLe v u = true := by
  cases u <;> cases v <;> simp [fvLe]
  exact le_total _ _

theorem fvLe_trans (u v w : FV) (h1 : fvLe u v = true) (h2 : fvLe v w = true) :
    fvLe u w = true := by
  cases u <;> cases v <;> cases w <;> simp_all [fvLe]
  exact le_trans h1 h2

/-- Strict code-point lexicographic order on character lists. -/
def lexLt : List Char → List Char → Bool
  | [], [] => false
  | [], _ :: _ => true
  | _ :: _, [] => false
  | a :: as, b :: bs =>
      decide (a.toNat < b.toNat) || (decide (a.toNat = b.toNat) && lexLt as bs)

/-- Strict lexicographic order on strings (how pandas orders the `state`
column). -/
def strLt (a b : String) : Bool := lexLt a.data b.data

theorem lexLt_irrefl (l : List Char) : lexLt l l = false := by
  induction l with
  | nil => rfl
  | cons a as ih => simp [lexLt, ih]

theorem char_toNat_inj {a b : Char} (h : a.toNat = b.toNat) : a = b :=
  Char.ext (UInt32.ext h)

theorem lexLt_trichotomy (l m : List Char) :
    lexLt l m = true ∨ lexLt m l = true ∨ l = m := by
  induction l generalizing m with
  | nil => cases m <;> simp [lexLt]
  | cons a as ih =>
    cases m with
    | nil => simp [lexLt]
    | cons b bs =>
      rcases Nat.lt_trichotomy a.toNat b.toNat with h | h | h
      · left; simp [lexLt, h]
      · have hab : a = b := char_toNat_inj h
        subst hab
        rcases ih bs with h' | h' | h'
        · left; simp [lexLt, h']
        · right; left; simp [lexLt, h']
        · right; right; rw [h']
      · right; left; simp [lexLt, h]

theorem lexLt_trans (l m n : List Char) (h1 : lexLt l m = true)
    (h2 : lexLt m n = true) : lexLt l n = true := by
  induction l generalizing m n with
  | nil =>
    cases m with
    | nil => simp [lexLt] at h1
    | cons b bs =>
      cases n with
      | nil => simp [lexLt] at h2
      | cons c cs => simp [lexLt]
  | cons a as ih =>
    cases m with
    | nil => simp [lexLt] at h1
    | cons b bs =>
      cases n with
      | nil => simp [lexLt] at h2
      | cons c cs =>
        simp only [lexLt, Bool.or_eq_true, Bool.and_eq_true,
          decide_eq_true_eq] at h1 h2 ⊢
        rcases h1 with h1 | ⟨h1e, h1r⟩
        · rcases h2 with h2 | ⟨h2e, h2r⟩
          · exact Or.inl (lt_trans h1 h2)
          · exact Or.inl (h2e ▸ h1)
        · rcases h2 with h2 | ⟨h2e, h2r⟩
          · exact Or.inl (h1e ▸ h2)
          · exact Or.inr ⟨h1e.trans h2e, ih bs cs h1r h2r⟩

theorem strLt_irrefl (a : String) : strLt a a = false := lexLt_irrefl a.data

theorem strLt_trichotomy (a b : String) :
    strLt a b = true ∨ strLt b a = true ∨ a = b := by
  rcases lexLt_trichotomy a.data b.data with h | h | h
  · exact Or.inl h
  · exact Or.inr (Or.inl h)
  · refine Or.inr (Or.inr ?_)
    cases a; cases b; exact congrArg String.mk h

theorem strLt_trans (a b c : String) (h1 : strLt a b = true)
    (h2 : strLt b c = true) : strLt a c = true :=
  lexLt_trans a.data b.data c.data h1 h2

theorem strLt_asymm (a b : String) (h : strLt a b = true) : strLt b a = false := by
  by_contra hc
  have hba : strLt b a = true := by
    cases hh : strLt b a
    · exact absurd hh hc
    · rfl
  have := strLt_trans a b a h hba
  rw [strLt_irrefl] at this
  exact Bool.false_ne_true this

-- ===== generic stable insertion sort (model of pandas `sort_values`) =====

/-- Insert an element in front of the first list element it compares
`le`-below-or-equal to.  On ties the inserted element goes first, which
makes `isort` a stable sort. -/
def insertLe {α : Type} (le : α → α → Bool) (a : α) : List α → List α
  | [] => [a]
  | b :: bs => if le a b then a :: b :: bs else b :: insertLe le a bs

/-- Stable insertion sort; the model of pandas `sort_values`. -/
def isort {α : Type} (le : α → α → Bool) : List α → List α
  | [] => []
  | a :: as => insertLe le a (isort le as)

theorem insertLe_perm {α : Type} (le : α → α → Bool) (a : α) (l : List α) :
    List.Perm (insertLe le a l) (a :: l) := by
  induction l with
  | nil => exact List.Perm.refl _
  | cons b bs ih =>
    by_cases h : le a b
    · simp only [insertLe, if_pos h]
      exact List.Perm.refl _
    · simp only [insertLe, if_neg h]
      exact (ih.cons b).trans (List.Perm.swap a b bs)

theorem isort_perm {α : Type} (le : α → α → Bool) (l : List α) :
    List.Perm (isort le l) l := by
  induction l with
  | nil => exact List.Perm.refl _
  | cons a as ih => exact (insertLe_perm le a (isort le as)).trans (ih.cons a)

theorem mem_insertLe {α : Type} (le : α → α → Bool) {a x : α} {l : List α} :
    x ∈ insertLe le a l ↔ x = a ∨ x ∈ l := by
  rw [(insertLe_perm le a l).mem_iff, List.mem_cons]

theorem mem_isort {α : Type} (le : α → α → Bool) {x : α} {l : List α} :
    x ∈ isort le l ↔ x ∈ l :=
  (isort_perm le l).mem_iff

theorem insertLe_pairwise {α : Type} (le : α → α → Bool)
    (htot : ∀ a b, le a b = true ∨ le b a = true)
    (htr : ∀ a b c, le a b = true → le b c = true → le a c = true)
    (a : α) (l : List α) (h : l.Pairwise (fun x y => le x y = true)) :
    (insertLe le a l).Pairwise (fun x y => le x y = true) := by
  induction l with
  | nil => simp [insertLe]
  | cons b bs ih =>
    rcases List.pairwise_cons.mp h with ⟨hb, hbs⟩
    by_cases hab : le a b = true
    · simp only [insertLe, if_pos hab]
      refine List.pairwise_cons.mpr ⟨?_, h⟩
      intro y hy
      rcases List.mem_cons.mp hy with rfl | hy'
      · exact hab
      · exact htr a b y hab (hb y hy')
    · have hba : le b a = true := (htot a b).resolve_left hab
      simp only [insertLe, if_neg hab]
      refine List.pairwise_cons.mpr ⟨?_, ih hbs⟩
      intro y hy
      rcases (mem_insertLe le).mp hy with rfl | hy'
      · exact hba
      · exact hb y hy'

theorem isort_pairwise {α : Type} (le : α → α → Bool)
    (htot : ∀ a b, le a b = true ∨ le b a = true)
    (htr : ∀ a b c, le a b = true → le b c = true → le a c = true)
    (l : List α) :
    (isort le l).Pairwise (fun x y => le x y = true) := by
  induction l with
  | nil => simp [isort]
  | cons a as ih => exact insertLe_pairwise le htot htr a (isort le as) ih

theorem insertLe_filter_pos {α : Type} (le : α → α → Bool) (p : α → Bool)
    (a : α) (l : List α) (ha : p a = true)
    (hskip : ∀ b ∈ l, le a b = false → p b = false) :
    (insertLe le a l).filter p = a :: l.filter p := by
  induction l with
  | nil => simp [insertLe, ha]
  | cons b bs ih =>
    by_cases hab : le a b = true
    · simp only [insertLe, if_pos hab]
      rw [List.filter_cons_of_pos ha]
    · have hab' : le a b = false := by
        cases hh : le a b
        · rfl
        · exact absurd hh hab
      have hpb : p b = false := hskip b (List.mem_cons_self b bs) hab'
      simp only [insertLe, if_neg hab]
      rw [List.filter_cons_of_neg (by simp [hpb]),
          ih (fun c hc => hskip c (List.mem_cons_of_mem b hc)),
          List.filter_cons_of_neg (by simp [hpb])]

theorem insertLe_filter_neg {α : Type} (le : α → α → Bool) (p : α → Bool)
    (a : α) (l : List α) (ha : p a = false) :
    (insertLe le a l).filter p = l.filter p := by
  induction l with
  | nil => simp [insertLe, ha]
  | cons b bs ih =>
    by_cases hab : le a b = true
    · simp only [insertLe, if_pos hab]
      rw [List.filter_cons_of_neg (by simp [ha])]
    · simp only [insertLe, if_neg hab]
      by_cases hpb : p b = true
      · rw [List.filter_cons_of_pos hpb, ih, List.filter_cons_of_pos hpb]
      · have hpb' : p b = false := by
          cases hh : p b
          · rfl
          · exact absurd hh hpb
        rw [List.filter_cons_of_neg (by simp [hpb']), ih,
            List.filter_cons_of_neg (by simp [hpb'])]

/-- Stability of `isort`: for any key value `k`, the elements whose key is
`k` come out in the order they went in, provided the comparison never
strictly reorders equal keys (`hkey`). -/
theorem isort_filter_key {α κ : Type} [DecidableEq κ] (le : α → α → Bool)
    (key : α → κ) (hkey : ∀ a b, le a b = false → key a ≠ key b)
    (l : List α) (k : κ) :
    (isort le l).filter (fun x => decide (key x = k)) =
      l.filter (fun x => decide (key x = k)) := by
  induction l with
  | nil => rfl
  | cons a as ih =>
    have hrec : isort le (a :: as) = insertLe le a (isort le as) := rfl
    by_cases hk : key a = k
    · rw [hrec, insertLe_filter_pos le _ a _ (by simp [hk])
        (fun b _ hf => by
          have := hkey a b hf
          simp only [decide_eq_false_iff_not]
          intro hbk
          exact this (by rw [hk, hbk])),
        ih, List.filter_cons_of_pos (by simp [hk])]
    · rw [hrec, insertLe_filter_neg le _ a _ (by simp [hk]), ih,
        List.filter_cons_of_neg (by simp [hk])]

-- ===== data model =====

/-- A raw CSV row of the DOSM dataset, after date parsing: the columns
`load_data` uses (`src/app.py` lines 41-44).  Other CSV columns are
ignored by the script and omitted here.  Dates are totally ordered and
modelled as naturals; `index` is the CPI value. -/
structure RawRow where
  state : String
  date : ℕ
  division : String
  index : ℚ
deriving DecidableEq

/-- A row of the enriched table produced by `load_data`: the raw fields
plus the derived `inflation_yoy` column (`src/app.py` line 47).
`inflation_yoy` is the only column that can hold `NaN`. -/
structure Row where
  state : String
  date : ℕ
  index : ℚ
  inflation_yoy : FV
deriving DecidableEq

/-- Default `RawRow` used by positional lookups (`List.getD`). -/
def dRaw : RawRow := ⟨"", 0, "", 0⟩

/-- Default `Row` used by positional lookups (`List.getD`). -/
def dRow : Row := ⟨"", 0, 0, FV.nan⟩

-- ===== the pipeline of load_data (src/app.py lines 33-52) =====

/-- Comparison for `df.sort_values(['state', 'date'])`
(`src/app.py` line 44): lexicographic on the (state, date) key.  Pandas'
multi-column sort is a stable lexsort, so the model sorts stably. -/
def nkLe (a b : RawRow) : Bool :=
  strLt a.state b.state || (decide (a.state = b.state) && decide (a.date ≤ b.date))

/-- `df = df[df['division'] == 'overall']; df = df.sort_values(['state', 'date'])`
(`src/app.py` lines 43-44): restrict to the `overall` division and sort by
(state, date). -/
def normalizeTable (raw : List RawRow) : List RawRow :=
  isort nkLe (raw.filter (fun r => decide (r.division = "overall")))

/-- The `pct_change(12) * 100` value of a row whose earlier same-state
rows are `before` (`src/app.py` line 47): `NaN` while the group holds
fewer than 12 earlier rows, else `(index / index 12 rows earlier - 1) * 100`
in idealised float arithmetic. -/
def inflOf (before : List RawRow) (r : RawRow) : FV :=
  if before.length < 12 then FV.nan
  else fvMul (fvSub (fvDiv (FV.fin r.index)
        (FV.fin ((before.getD (before.length - 12) dRaw).index)))
        (FV.fin 1)) (FV.fin 100)

/-- One enriched row: the raw fields of `r` plus its `inflation_yoy`
value, computed from the rows before `r` in table order that share its
`state` — exactly the group `groupby('state')` gives `r`. -/
def mkAnnRow (seen : List RawRow) (r : RawRow) : Row :=
  ⟨r.state, r.date, r.index,
    inflOf (seen.filter (fun x => decide (x.state = r.state))) r⟩

/-- `df.groupby('state')['index'].pct_change(12) * 100`
(`src/app.py` line 47), processing the table in order and carrying the
rows already seen. -/
def annotateAux (seen : List RawRow) : List RawRow → List Row
  | [] => []
  | r :: rs => mkAnnRow seen r :: annotateAux (seen ++ [r]) rs

/-- `df['inflation_yoy'] = df.groupby('state')['index'].pct_change(12) * 100`
(`src/app.py` line 47): the enriched table, rows kept in table order. -/
def annotate (rows : List RawRow) : List Row := annotateAux [] rows

/-- Outcome of the HTTP fetch of `src/app.py` lines 39-40: either the
parsed CSV rows, or an exception (non-success status raised by
`raise_for_status`, or a transport/timeout failure). -/
inductive FetchResult where
  | ok (raw : List RawRow)
  | failure (cause : String)
deriving DecidableEq

/-- `load_data` (`src/app.py` lines 33-52): on a successful fetch it
returns the normalized and annotated table; on any exception it shows an
error message and returns `None`. -/
def load_data (fr : FetchResult) : Option (List Row) :=
  match fr with
  | .ok raw => some (annotate (normalizeTable raw))
  | .failure _ => none

/-- The Streamlit session state the script keeps: `st.session_state.df`
(`src/app.py` lines 55-57). -/
structure SessionState where
  df : Option (List Row)
deriving DecidableEq

/-- `refresh_data` (`src/app.py` lines 60-64): unconditionally overwrites
`st.session_state.df` with the result of `load_data(force_refresh=True)`,
whatever the previous value was. -/
def refresh_data (_st : SessionState) (fr : FetchResult) : SessionState :=
  { df := load_data fr }

/-- The memo held by the `@st.cache_data(ttl=300)` decorator on
`load_data` (`src/app.py` line 32): the cached return value, if any.
(The time-to-live is not modelled; within the TTL the entry behaves as
stored here.) -/
structure CacheState where
  entry : Option (Option (List Row))
deriving DecidableEq

/-- `load_data` as called through the cache decorator: `force_refresh=True`
first clears the cache (`src/app.py` lines 34-35); a hit returns the memo;
a miss runs the body and memoises its return value. -/
def load_data_cached (c : CacheState) (force : Bool) (fr : FetchResult) :
    Option (List Row) × CacheState :=
  let c' := if force then { entry := none } else c
  match c'.entry with
  | some v => (v, c')
  | none => (load_data fr, { entry := some (load_data fr) })

-- ===== derived views (src/app.py lines 119-130 and 176-182) =====

/-- Pandas `dropna()`: drop every row with a `NaN` in some column.  In the
enriched table only `inflation_yoy` can be `NaN`. -/
def dropna (t : List Row) : List Row :=
  t.filter (fun r => !(FV.isNan r.inflation_yoy))

/-- The filtered view `state_data` (`src/app.py` lines 119-123): the rows
of the session table whose `state` equals the selected state and whose
`date` lies in the inclusive selected range. -/
def state_data (df : List Row) (state : String) (start_date end_date : ℕ) :
    List Row :=
  df.filter (fun r =>
    decide (r.state = state) && decide (start_date ≤ r.date) &&
      decide (r.date ≤ end_date))

/-- Outcome of the headline block, `src/app.py` lines 126-130. -/
inductive HeadlineResult where
  | ok (r : Row)
  | noData
  | indexError
deriving DecidableEq

/-- `latest` (`src/app.py` lines 126-130): if the filtered view is empty,
show the "No data available" warning and stop; otherwise take
`state_data.dropna().iloc[-1]`.  When the view is nonempty but every row
has `NaN` `inflation_yoy`, `dropna()` is empty and `.iloc[-1]` raises an
unhandled `IndexError`, modelled by `indexError`. -/
def latest (view : List Row) : HeadlineResult :=
  if view.isEmpty then .noData
  else
    match (dropna view).getLast? with
    | some r => .ok r
    | none => .indexError

/-- Comparison for `sort_values('date')` (`src/app.py` line 178). -/
def dateLe (a b : Row) : Bool := decide (a.date ≤ b.date)

/-- Comparison for `sort_values('inflation_yoy', ascending=True)`
(`src/app.py` line 181). -/
def inflLe (a b : Row) : Bool := fvLe a.inflation_yoy b.inflation_yoy

/-- `groupby('state').tail(1)` (`src/app.py` lines 179-180): keep, in list
order, the last row of each state. -/
def tail1ByState : List Row → List Row
  | [] => []
  | r :: rs =>
      if rs.any (fun x => decide (x.state = r.state)) then tail1ByState rs
      else r :: tail1ByState rs

/-- `latest_state` (`src/app.py` lines 176-182):
`df.dropna().sort_values('date').groupby('state').tail(1).sort_values('inflation_yoy', ascending=True)`. -/
def latest_state (t : List Row) : List Row :=
  isort inflLe (tail1ByState (isort dateLe (dropna t)))

-- ===== groupwise structure of `annotate` =====

/-- The sub-table of rows of region `s`, in table order (the region's
chronological sequence when the table is sorted). -/
def grpRow (t : List Row) (s : String) : List Row :=
  t.filter (fun r => decide (r.state = s))

/-- The sub-list of raw rows of region `s`, in list order. -/
def grpRaw (t : List RawRow) (s : String) : List RawRow :=
  t.filter (fun r => decide (r.state = s))

theorem annotateAux_length (seen rows : List RawRow) :
    (annotateAux seen rows).length = rows.length := by
  induction rows generalizing seen with
  | nil => rfl
  | cons r rs ih => simp [annotateAux, ih]

/-- Restricting the annotated table to one region commutes with the
annotation: each row's `inflation_yoy` only depends on the earlier rows
of its own region. -/
theorem annotateAux_filter (rows : List RawRow) (seen : List RawRow) (s : String) :
    (annotateAux seen rows).filter (fun r => decide (r.state = s)) =
      annotateAux (seen.filter (fun x => decide (x.state = s)))
        (rows.filter (fun x => decide (x.state = s))) := by
  induction rows generalizing seen with
  | nil => rfl
  | cons r rs ih =>
    by_cases hs : r.state = s
    · subst hs
      have hmk : (mkAnnRow seen r).state = r.state := rfl
      rw [show annotateAux seen (r :: rs) = mkAnnRow seen r :: annotateAux (seen ++ [r]) rs from rfl,
        List.filter_cons_of_pos (by simp [hmk]), ih,
        List.filter_cons_of_pos (by simp),
        show annotateAux (seen.filter (fun x => decide (x.state = r.state)))
            (r :: rs.filter (fun x => decide (x.state = r.state))) =
          mkAnnRow (seen.filter (fun x => decide (x.state = r.state))) r ::
            annotateAux (seen.filter (fun x => decide (x.state = r.state)) ++ [r])
              (rs.filter (fun x => decide (x.state = r.state))) from rfl]
      have hff : (seen.filter (fun x => decide (x.state = r.state))).filter
          (fun x => decide (x.state = r.state)) =
          seen.filter (fun x => decide (x.state = r.state)) := by
        rw [List.filter_filter]
        exact List.filter_congr (fun x _ => by simp)
      have happ : (seen ++ [r]).filter (fun x => decide (x.state = r.state)) =
          seen.filter (fun x => decide (x.state = r.state)) ++ [r] := by
        rw [List.filter_append]
        simp
      rw [happ]
      congr 1
      unfold mkAnnRow
      rw [hff]
    · rw [show annotateAux seen (r :: rs) = mkAnnRow seen r :: annotateAux (seen ++ [r]) rs from rfl,
        List.filter_cons_of_neg (by simp [mkAnnRow, hs]), ih,
        List.filter_cons_of_neg (by simp [hs])]
      have happ : (seen ++ [r]).filter (fun x => decide (x.state = s)) =
          seen.filter (fun x => decide (x.state = s)) := by
        rw [List.filter_append]
        simp [hs]
      rw [happ]

/-- Positional description of `annotateAux` on a one-region list: the
`i`-th produced row copies the `i`-th input row and derives
`inflation_yoy` from the row 12 group positions earlier. -/
theorem annotateAux_getD (g : List RawRow) (seen : List RawRow) (s : String)
    (hg : ∀ x ∈ g, x.state = s) (hseen : ∀ x ∈ seen, x.state = s)
    (i : ℕ) (hi : i < g.length) :
    (annotateAux seen g).getD i dRow =
      ⟨(g.getD i dRaw).state, (g.getD i dRaw).date, (g.getD i dRaw).index,
        if seen.length + i < 12 then FV.nan
        else fvMul (fvSub (fvDiv (FV.fin (g.getD i dRaw).index)
          (FV.fin (((seen ++ g).getD (seen.length + i - 12) dRaw).index)))
          (FV.fin 1)) (FV.fin 100)⟩ := by
  induction g generalizing seen i with
  | nil => exact absurd hi (by simp)
  | cons r rs ih =>
    have hrs : r.state = s := hg r (List.mem_cons_self r rs)
    cases i with
    | zero =>
      have hfs : seen.filter (fun x => decide (x.state = r.state)) = seen := by
        apply List.filter_eq_self.mpr
        intro x hx
        simp [hseen x hx, hrs]
      rw [show annotateAux seen (r :: rs) = mkAnnRow seen r :: annotateAux (seen ++ [r]) rs from rfl,
        List.getD_cons_zero, List.getD_cons_zero]
      unfold mkAnnRow inflOf
      rw [hfs]
      by_cases h12 : seen.length < 12
      · simp [h12]
      · have hlt : seen.length - 12 < seen.length := by omega
        rw [if_neg (by omega), if_neg (by omega),
          List.getD_append seen (r :: rs) dRaw (seen.length + 0 - 12) (by omega)]
        have : seen.length + 0 - 12 = seen.length - 12 := by omega
        rw [this]
    | succ i' =>
      have hi' : i' < rs.length := by simpa using hi
      rw [show annotateAux seen (r :: rs) = mkAnnRow seen r :: annotateAux (seen ++ [r]) rs from rfl,
        List.getD_cons_succ, List.getD_cons_succ,
        ih (seen ++ [r]) (fun x hx => hg x (List.mem_cons_of_mem r hx))
          (fun x hx => by
            rcases List.mem_append.mp hx with h | h
            · exact hseen x h
            · simp only [List.mem_singleton] at h
              exact h ▸ hrs)
          i' hi']
      have hlen : (seen ++ [r]).length = seen.length + 1 := by simp
      have harr : seen ++ [r] ++ rs = seen ++ r :: rs := by
        rw [List.append_assoc, List.singleton_append]
      have hidx : (seen ++ [r]).length + i' = seen.length + (i' + 1) := by
        rw [hlen]; omega
      rw [harr, hidx]

/-- The region-`s` sub-table of the annotated table is the annotation of
the region-`s` sub-list of the input. -/
theorem grpRow_annotate (rows : List RawRow) (s : String) :
    grpRow (annotate rows) s = annotateAux [] (grpRaw rows s) := by
  unfold grpRow annotate grpRaw
  rw [annotateAux_filter]
  rfl

theorem grpRow_annotate_length (rows : List RawRow) (s : String) :
    (grpRow (annotate rows) s).length = (grpRaw rows s).length := by
  rw [grpRow_annotate, annotateAux_length]

/-- Positional description of a region's annotated sequence. -/
theorem grpRow_annotate_getD (rows : List RawRow) (s : String) (i : ℕ)
    (hi : i < (grpRow (annotate rows) s).length) :
    (grpRow (annotate rows) s).getD i dRow =
      ⟨((grpRaw rows s).getD i dRaw).state, ((grpRaw rows s).getD i dRaw).date,
        ((grpRaw rows s).getD i dRaw).index,
        if i < 12 then FV.nan
        else fvMul (fvSub (fvDiv (FV.fin ((grpRaw rows s).getD i dRaw).index)
          (FV.fin (((grpRaw rows s).getD (i - 12) dRaw).index)))
          (FV.fin 1)) (FV.fin 100)⟩ := by
  have hi' : i < (grpRaw rows s).length := by
    rwa [grpRow_annotate_length] at hi
  have hg : ∀ x ∈ grpRaw rows s, x.state = s := by
    intro x hx
    have := List.of_mem_filter hx
    simpa using this
  rw [grpRow_annotate]
  have h := annotateAux_getD (grpRaw rows s) [] s hg (by simp) i hi'
  simpa using h

-- ===== order facts for the (state, date) sort key =====

theorem nkLe_total (a b : RawRow) : nkLe a b = true ∨ nkLe b a = true := by
  unfold nkLe
  rcases strLt_trichotomy a.state b.state with h | h | h
  · left; simp [h]
  · right; simp [h]
  · rcases Nat.le_total a.date b.date with hd | hd
    · left; simp [h, hd]
    · right; simp [h.symm, hd]

theorem nkLe_trans (a b c : RawRow) (h1 : nkLe a b = true)
    (h2 : nkLe b c = true) : nkLe a c = true := by
  unfold nkLe at h1 h2 ⊢
  simp only [Bool.or_eq_true, Bool.and_eq_true, decide_eq_true_eq] at h1 h2 ⊢
  rcases h1 with h1 | ⟨h1e, h1d⟩
  · rcases h2 with h2 | ⟨h2e, h2d⟩
    · exact Or.inl (strLt_trans _ _ _ h1 h2)
    · exact Or.inl (h2e ▸ h1)
  · rcases h2 with h2 | ⟨h2e, h2d⟩
    · refine Or.inl ?_
      rw [h1e]
      exact h2
    · exact Or.inr ⟨h1e.trans h2e, le_trans h1d h2d⟩

theorem nkLe_false_key (a b : RawRow) (h : nkLe a b = false) :
    (a.state, a.date) ≠ (b.state, b.date) := by
  intro he
  have hs : a.state = b.state := congrArg Prod.fst he
  have hd : a.date = b.date := congrArg Prod.snd he
  have : nkLe a b = true := by
    simp [nkLe, hs, hd]
  rw [h] at this
  exact Bool.false_ne_true this

theorem dateLe_total (a b : Row) : dateLe a b = true ∨ dateLe b a = true := by
  unfold dateLe
  simp only [decide_eq_true_eq]
  exact Nat.le_total a.date b.date

theorem dateLe_trans (a b c : Row) (h1 : dateLe a b = true)
    (h2 : dateLe b c = true) : dateLe a c = true := by
  unfold dateLe at h1 h2 ⊢
  simp only [decide_eq_true_eq] at h1 h2 ⊢
  exact le_trans h1 h2

theorem inflLe_total (a b : Row) : inflLe a b = true ∨ inflLe b a = true :=
  fvLe_total a.inflation_yoy b.inflation_yoy

theorem inflLe_trans (a b c : Row) (h1 : inflLe a b = true)
    (h2 : inflLe b c = true) : inflLe a c = true :=
  fvLe_trans a.inflation_yoy b.inflation_yoy c.inflation_yoy h1 h2

theorem notNan_eq_true (v : FV) : (!(FV.isNan v)) = true ↔ v ≠ FV.nan := by
  cases v <;> simp [FV.isNan]

theorem mem_dropna {r : Row} {t : List Row} :
    r ∈ dropna t ↔ r ∈ t ∧ r.inflation_yoy ≠ FV.nan := by
  unfold dropna
  rw [List.mem_filter, notNan_eq_true]

-- ===== claims =====

/-- C1: in the derived table, within each region's row sequence (the
region's chronological sequence, for a normalized table), `inflation_yoy`
is `NaN` ("null") for the first 12 rows, and for every row `i ≥ 12` it
equals `(index[i] / index[i-12] - 1) * 100`, where the offset 12 is by
row position within the region's sequence, not by calendar-date
arithmetic.  (`src/app.py` line 47.) -/
theorem C1_yoy_by_row_offset (rows : List RawRow) (s : String) (i : ℕ)
    (hi : i < (grpRow (annotate rows) s).length) :
    (i < 12 → ((grpRow (annotate rows) s).getD i dRow).inflation_yoy = FV.nan) ∧
    (12 ≤ i → ((grpRow (annotate rows) s).getD i dRow).inflation_yoy =
      fvMul (fvSub (fvDiv (FV.fin (((grpRow (annotate rows) s).getD i dRow).index))
        (FV.fin (((grpRow (annotate rows) s).getD (i - 12) dRow).index)))
        (FV.fin 1)) (FV.fin 100)) := by
  constructor
  · intro h12
    rw [grpRow_annotate_getD rows s i hi]
    simp [h12]
  · intro h12
    have hi12 : i - 12 < (grpRow (annotate rows) s).length :=
      lt_of_le_of_lt (Nat.sub_le i 12) hi
    rw [grpRow_annotate_getD rows s i hi, grpRow_annotate_getD rows s (i - 12) hi12]
    simp [Nat.not_lt.mpr h12]

/-- A 13-observation single-region table used as concrete input. -/
def w13 : List RawRow :=
  [⟨"A", 0, "overall", 100⟩, ⟨"A", 1, "overall", 100⟩, ⟨"A", 2, "overall", 100⟩,
   ⟨"A", 3, "overall", 100⟩, ⟨"A", 4, "overall", 100⟩, ⟨"A", 5, "overall", 100⟩,
   ⟨"A", 6, "overall", 100⟩, ⟨"A", 7, "overall", 100⟩, ⟨"A", 8, "overall", 100⟩,
   ⟨"A", 9, "overall", 100⟩, ⟨"A", 10, "overall", 100⟩, ⟨"A", 11, "overall", 100⟩,
   ⟨"A", 12, "overall", 104⟩]

theorem C1_yoy_by_row_offset_witness :
    ((grpRow (annotate w13) "A").getD 0 dRow).inflation_yoy = FV.nan ∧
    ((grpRow (annotate w13) "A").getD 12 dRow).inflation_yoy = FV.fin 4 := by
  have hlen : (grpRow (annotate w13) "A").length = 13 := by
    rw [grpRow_annotate_length]
    rfl
  have h0 := (C1_yoy_by_row_offset w13 "A" 0 (by rw [hlen]; omega)).1 (by omega)
  have h12 := (C1_yoy_by_row_offset w13 "A" 12 (by rw [hlen]; omega)).2 (le_refl 12)
  refine ⟨h0, ?_⟩
  rw [h12, grpRow_annotate_getD w13 "A" 12 (by rw [hlen]; omega),
    grpRow_annotate_getD w13 "A" 0 (by rw [hlen]; omega)]
  have hx : ((grpRaw w13 "A").getD 12 dRaw).index = 104 := rfl
  have hy : ((grpRaw w13 "A").getD (12 - 12) dRaw).index = 100 := rfl
  simp only [hx, hy]
  norm_num [fvDiv, fvSub, fvMul]

/-- C6: the normalizer keeps exactly the rows with
`division == "overall"` and sorts them ascending by (state, date); rows
sharing the same (state, date) key keep their input order (stability).
(`src/app.py` lines 43-44.) -/
theorem C6_normalizer (raw : List RawRow) :
    List.Perm (normalizeTable raw)
      (raw.filter (fun r => decide (r.division = "overall"))) ∧
    (normalizeTable raw).Pairwise (fun a b =>
      strLt a.state b.state = true ∨ (a.state = b.state ∧ a.date ≤ b.date)) ∧
    (∀ s d, (normalizeTable raw).filter
        (fun r => decide ((r.state, r.date) = (s, d))) =
      (raw.filter (fun r => decide (r.division = "overall"))).filter
        (fun r => decide ((r.state, r.date) = (s, d)))) := by
  refine ⟨isort_perm _ _, ?_, ?_⟩
  · have h := isort_pairwise nkLe nkLe_total nkLe_trans
      (raw.filter (fun r => decide (r.division = "overall")))
    refine h.imp ?_
    intro a b hab
    simpa [nkLe, Bool.or_eq_true, Bool.and_eq_true, decide_eq_true_eq] using hab
  · intro s d
    exact isort_filter_key nkLe (fun r => (r.state, r.date)) nkLe_false_key _ (s, d)

/-- C3: the filtered view returns exactly the rows of the table whose
state equals the selected state and whose date lies in the inclusive
interval, as a subsequence of the table (hence in ascending date order
whenever the table is sorted by (state, date)); an absent state or a
reversed range gives an empty result, never an error.
(`src/app.py` lines 119-123.) -/
theorem C3_filter_view (df : List Row) (s : String) (a b : ℕ) :
    (state_data df s a b).Sublist df ∧
    (∀ r, r ∈ state_data df s a b ↔
      (r ∈ df ∧ r.state = s ∧ a ≤ r.date ∧ r.date ≤ b)) ∧
    (df.Pairwise (fun x y =>
        strLt x.state y.state = true ∨ (x.state = y.state ∧ x.date ≤ y.date)) →
      (state_data df s a b).Pairwise (fun x y => x.date ≤ y.date)) ∧
    ((∀ r ∈ df, r.state ≠ s) → state_data df s a b = []) ∧
    (b < a → state_data df s a b = []) := by
  refine ⟨List.filter_sublist df, ?_, ?_, ?_, ?_⟩
  · intro r
    unfold state_data
    rw [List.mem_filter]
    simp [and_assoc]
  · intro hsort
    have hsub : (state_data df s a b).Sublist df := List.filter_sublist df
    have hp := hsort.sublist hsub
    refine hp.imp_of_mem ?_
    intro x y hx hy hxy
    have hxs : x.state = s := by
      have := List.of_mem_filter hx
      simp only [Bool.and_eq_true, decide_eq_true_eq] at this
      exact this.1.1
    have hys : y.state = s := by
      have := List.of_mem_filter hy
      simp only [Bool.and_eq_true, decide_eq_true_eq] at this
      exact this.1.1
    rcases hxy with h | h
    · rw [hxs, hys.symm] at h
      rw [strLt_irrefl y.state] at h
      exact absurd h (by simp)
    · exact h.2
  · intro habs
    apply List.filter_eq_nil_iff.mpr
    intro r hr
    simp only [Bool.and_eq_true, decide_eq_true_eq]
    rintro ⟨⟨hs, -⟩, -⟩
    exact habs r hr hs
  · intro hrev
    apply List.filter_eq_nil_iff.mpr
    intro r hr
    simp only [Bool.and_eq_true, decide_eq_true_eq]
    rintro ⟨⟨-, har⟩, hrb⟩
    omega

/-- A small sorted three-row table used as concrete input. -/
def wdf3 : List Row :=
  [⟨"A", 1, 100, FV.nan⟩, ⟨"A", 2, 101, FV.fin 1⟩, ⟨"B", 1, 90, FV.fin 2⟩]

theorem C3_filter_view_witness :
    (state_data wdf3 "A" 1 2).Pairwise (fun x y => x.date ≤ y.date) ∧
    state_data wdf3 "Z" 0 9 = [] ∧
    state_data wdf3 "A" 5 2 = [] := by
  refine ⟨(C3_filter_view wdf3 "A" 1 2).2.2.1 ?_,
    (C3_filter_view wdf3 "Z" 0 9).2.2.2.1 ?_,
    (C3_filter_view wdf3 "A" 5 2).2.2.2.2 (by omega)⟩
  · refine List.pairwise_cons.mpr ⟨?_, List.pairwise_cons.mpr ⟨?_, ?_⟩⟩ <;>
      simp [wdf3] <;> decide
  · intro r hr
    fin_cases hr <;> decide

/-- C10: whenever the headline observation exists, it is the last row of
the `dropna`-ed *filtered* view: its state is the selected state and its
date lies in the selected inclusive range (rather than it being the
state's latest row in the whole table).  (`src/app.py` lines 119-127.) -/
theorem C10_headline_from_view (df : List Row) (s : String) (a b : ℕ) (r : Row)
    (h : latest (state_data df s a b) = HeadlineResult.ok r) :
    (dropna (state_data df s a b)).getLast? = some r ∧
    r ∈ df ∧ r.state = s ∧ a ≤ r.date ∧ r.date ≤ b ∧
    r.inflation_yoy ≠ FV.nan := by
  unfold latest at h
  by_cases he : (state_data df s a b).isEmpty
  · rw [if_pos he] at h
    exact absurd h (by simp)
  · rw [if_neg he] at h
    rcases hg : (dropna (state_data df s a b)).getLast? with _ | r'
    · rw [hg] at h
      exact absurd h (by simp)
    · rw [hg] at h
      injection h with hh
      subst hh
      have hmem : r' ∈ dropna (state_data df s a b) :=
        List.mem_of_mem_getLast? hg
      rcases mem_dropna.mp hmem with ⟨hmv, hnn⟩
      have hprops := List.of_mem_filter hmv
      simp only [Bool.and_eq_true, decide_eq_true_eq] at hprops
      exact ⟨rfl, List.mem_of_mem_filter hmv, hprops.1.1, hprops.1.2, hprops.2, hnn⟩

theorem C10_headline_from_view_witness :
    (dropna (state_data wdf3 "A" 1 2)).getLast? = some ⟨"A", 2, 101, FV.fin 1⟩ ∧
    (⟨"A", 2, 101, FV.fin 1⟩ : Row) ∈ wdf3 ∧
    (⟨"A", 2, 101, FV.fin 1⟩ : Row).state = "A" ∧
    1 ≤ (⟨"A", 2, 101, FV.fin 1⟩ : Row).date ∧
    (⟨"A", 2, 101, FV.fin 1⟩ : Row).date ≤ 2 ∧
    (⟨"A", 2, 101, FV.fin 1⟩ : Row).inflation_yoy ≠ FV.nan :=
  C10_headline_from_view wdf3 "A" 1 2 ⟨"A", 2, 101, FV.fin 1⟩ rfl

/-- A nonempty filtered view all of whose rows carry `NaN`
`inflation_yoy` — what `state_data` yields for a region with at most 12
observations in range. -/
def c4view : List Row := [⟨"A", 0, 100, FV.nan⟩]

/-- C4 (code bug evaluation): on a nonempty filtered view whose rows all
have `NaN` `inflation_yoy`, the headline block takes the nonempty branch,
`dropna()` empties the frame, and `.iloc[-1]` raises an unhandled
`IndexError` — not the graceful "insufficient data" state the
specification requires.  (`src/app.py` lines 126-130.) -/
theorem C4_crash_on_allnan_view :
    c4view ≠ [] ∧ dropna c4view = [] ∧
    latest c4view = HeadlineResult.indexError := by
  refine ⟨by simp [c4view], rfl, rfl⟩

/-- A previously loaded (cached) one-row table. -/
def prevTable : List Row := [⟨"A", 0, 100, FV.fin 1⟩]

/-- C5 counterexample: after a refresh whose fetch fails (e.g. HTTP 500),
the held session table is NOT unchanged — `refresh_data` overwrites it
with `None`, so the previously cached table is no longer usable.
(`src/app.py` lines 50-52 and 60-64.) -/
theorem C5_cex_cached_table_lost :
    (refresh_data ⟨some prevTable⟩ (FetchResult.failure "HTTP 500")).df ≠
      some prevTable := by
  simp [refresh_data, load_data]

/-- C5 amended: when the fetch fails, an error is surfaced and no table
is produced (`load_data` returns `None`), and the refresh handler
replaces the held session table with that `None` — the previous cached
table does not remain usable; the UI shows its failure state until a
later successful fetch. -/
theorem C5_fetch_failure_clears_table (st : SessionState) (cause : String) :
    load_data (FetchResult.failure cause) = none ∧
    (refresh_data st (FetchResult.failure cause)).df = none :=
  ⟨rfl, rfl⟩

/-- C8: the normalize-plus-annotate pipeline is a pure, deterministic
function of the raw rows, with no dependence on hidden state: a fresh
run, a cached re-run, and a force-refreshed re-run on the same raw input
all produce the identical table `annotate (normalizeTable raw)`.
(`src/app.py` lines 32-49.) -/
theorem C8_pipeline_deterministic (raw : List RawRow) :
    (load_data_cached ⟨none⟩ false (FetchResult.ok raw)).1 =
      some (annotate (normalizeTable raw)) ∧
    (load_data_cached (load_data_cached ⟨none⟩ false (FetchResult.ok raw)).2
        false (FetchResult.ok raw)).1 =
      some (annotate (normalizeTable raw)) ∧
    (load_data_cached (load_data_cached ⟨none⟩ false (FetchResult.ok raw)).2
        true (FetchResult.ok raw)).1 =
      some (annotate (normalizeTable raw)) :=
  ⟨rfl, rfl, rfl⟩

/-- The `pct_change` formula at a zero base value: an infinity of the
sign of the numerator, never `NaN`. -/
theorem pct_zero_base (a : ℚ) (hna : a ≠ 0) :
    fvMul (fvSub (fvDiv (FV.fin a) (FV.fin 0)) (FV.fin 1)) (FV.fin 100) = FV.pinf ∨
    fvMul (fvSub (fvDiv (FV.fin a) (FV.fin 0)) (FV.fin 1)) (FV.fin 100) = FV.ninf := by
  rcases lt_trichotomy a 0 with h | h | h
  · right
    have h1 : fvDiv (FV.fin a) (FV.fin 0) = FV.ninf := by
      simp [fvDiv, hna, not_lt.mpr (le_of_lt h)]
    rw [h1, show fvSub FV.ninf (FV.fin 1) = FV.ninf from rfl]
    norm_num [fvMul]
  · exact absurd h hna
  · left
    have h1 : fvDiv (FV.fin a) (FV.fin 0) = FV.pinf := by
      simp [fvDiv, hna, h]
    rw [h1, show fvSub FV.pinf (FV.fin 1) = FV.pinf from rfl]
    norm_num [fvMul]

/-- C9: if within a region's sequence a row `i ≥ 12` has nonzero index
while the row 12 positions earlier has index 0, the derived
`inflation_yoy` is an infinity (non-null), not `NaN`, so the row survives
the null-dropping `dropna()` step used by both latest-value reducers and
can be selected as the region's latest observation.
(`src/app.py` lines 46-47, 126-127, 176-177.) -/
theorem C9_zero_base_gives_infinity (rows : List RawRow) (s : String) (i : ℕ)
    (hi : i < (grpRow (annotate rows) s).length) (h12 : 12 ≤ i)
    (hz : ((grpRow (annotate rows) s).getD (i - 12) dRow).index = 0)
    (hnz : ((grpRow (annotate rows) s).getD i dRow).index ≠ 0) :
    (((grpRow (annotate rows) s).getD i dRow).inflation_yoy = FV.pinf ∨
      ((grpRow (annotate rows) s).getD i dRow).inflation_yoy = FV.ninf) ∧
    (grpRow (annotate rows) s).getD i dRow ∈ dropna (annotate rows) := by
  have hi12 : i - 12 < (grpRow (annotate rows) s).length :=
    lt_of_le_of_lt (Nat.sub_le i 12) hi
  have ha := grpRow_annotate_getD rows s i hi
  have hb := grpRow_annotate_getD rows s (i - 12) hi12
  have hzz : ((grpRaw rows s).getD (i - 12) dRaw).index = 0 := by
    rw [hb] at hz
    exact hz
  have hnzz : ((grpRaw rows s).getD i dRaw).index ≠ 0 := by
    rw [ha] at hnz
    exact hnz
  have hinf : ((grpRow (annotate rows) s).getD i dRow).inflation_yoy = FV.pinf ∨
      ((grpRow (annotate rows) s).getD i dRow).inflation_yoy = FV.ninf := by
    rw [ha]
    dsimp only
    rw [if_neg (by omega : ¬ i < 12), hzz]
    exact pct_zero_base _ hnzz
  have hmm : (grpRow (annotate rows) s).getD i dRow ∈ grpRow (annotate rows) s := by
    rw [List.getD_eq_getElem _ _ hi]
    exact List.getElem_mem hi
  have hmem2 : (grpRow (annotate rows) s).getD i dRow ∈ annotate rows :=
    List.mem_of_mem_filter hmm
  have hne : ((grpRow (annotate rows) s).getD i dRow).inflation_yoy ≠ FV.nan := by
    rcases hinf with h | h <;> rw [h] <;> simp
  exact ⟨hinf, mem_dropna.mpr ⟨hmem2, hne⟩⟩

/-- A 13-observation region whose first index value is 0. -/
def w0 : List RawRow :=
  [⟨"A", 0, "overall", 0⟩, ⟨"A", 1, "overall", 1⟩, ⟨"A", 2, "overall", 1⟩,
   ⟨"A", 3, "overall", 1⟩, ⟨"A", 4, "overall", 1⟩, ⟨"A", 5, "overall", 1⟩,
   ⟨"A", 6, "overall", 1⟩, ⟨"A", 7, "overall", 1⟩, ⟨"A", 8, "overall", 1⟩,
   ⟨"A", 9, "overall", 1⟩, ⟨"A", 10, "overall", 1⟩, ⟨"A", 11, "overall", 1⟩,
   ⟨"A", 12, "overall", 5⟩]

theorem C9_zero_base_gives_infinity_witness :
    (((grpRow (annotate w0) "A").getD 12 dRow).inflation_yoy = FV.pinf ∨
      ((grpRow (annotate w0) "A").getD 12 dRow).inflation_yoy = FV.ninf) ∧
    (grpRow (annotate w0) "A").getD 12 dRow ∈ dropna (annotate w0) := by
  have hlen : (grpRow (annotate w0) "A").length = 13 := by
    rw [grpRow_annotate_length]
    rfl
  refine C9_zero_base_gives_infinity w0 "A" 12 (by rw [hlen]; omega) (le_refl 12) ?_ ?_
  · show ((grpRow (annotate w0) "A").getD 0 dRow).index = 0
    rw [grpRow_annotate_getD w0 "A" 0 (by rw [hlen]; omega)]
    rfl
  · rw [grpRow_annotate_getD w0 "A" 12 (by rw [hlen]; omega)]
    show (5 : ℚ) ≠ 0
    norm_num

-- ===== facts about groupby('state').tail(1) =====

theorem tail1_sublist (l : List Row) : (tail1ByState l).Sublist l := by
  induction l with
  | nil => exact List.Sublist.refl _
  | cons r rs ih =>
    unfold tail1ByState
    by_cases h : rs.any (fun x => decide (x.state = r.state)) = true
    · rw [if_pos h]
      exact ih.cons r
    · rw [if_neg h]
      exact ih.cons₂ r

theorem tail1_nodup_states (l : List Row) :
    ((tail1ByState l).map (fun r => r.state)).Nodup := by
  induction l with
  | nil => simp [tail1ByState]
  | cons r rs ih =>
    unfold tail1ByState
    by_cases h : rs.any (fun x => decide (x.state = r.state)) = true
    · rw [if_pos h]
      exact ih
    · rw [if_neg h]
      simp only [List.map_cons, List.nodup_cons]
      refine ⟨?_, ih⟩
      intro hmem
      rcases List.mem_map.mp hmem with ⟨x, hx, hxs⟩
      have hx' : x ∈ rs := List.Sublist.mem hx (tail1_sublist rs)
      exact h (List.any_eq_true.mpr ⟨x, hx', by simp [hxs]⟩)

/-- In a date-sorted list, each row kept by `tail(1)` carries the maximal
date of its state. -/
theorem tail1_max_date (l : List Row)
    (hsort : l.Pairwise (fun a b => a.date ≤ b.date)) :
    ∀ r ∈ tail1ByState l, ∀ q ∈ l, q.state = r.state → q.date ≤ r.date := by
  induction l with
  | nil => simp [tail1ByState]
  | cons x xs ih =>
    rcases List.pairwise_cons.mp hsort with ⟨hx, hxs⟩
    intro r hr q hq hqs
    unfold tail1ByState at hr
    by_cases h : xs.any (fun y => decide (y.state = x.state)) = true
    · rw [if_pos h] at hr
      rcases List.mem_cons.mp hq with rfl | hq'
      · exact hx r (List.Sublist.mem hr (tail1_sublist xs))
      · exact ih hxs r hr q hq' hqs
    · rw [if_neg h] at hr
      rcases List.mem_cons.mp hr with rfl | hr'
      · rcases List.mem_cons.mp hq with rfl | hq'
        · exact le_refl _
        · exact absurd (List.any_eq_true.mpr ⟨q, hq', by simp [hqs]⟩) h
      · rcases List.mem_cons.mp hq with rfl | hq'
        · exact hx r (List.Sublist.mem hr' (tail1_sublist xs))
        · exact ih hxs r hr' q hq' hqs

/-- Every state present in the list is represented in its `tail(1)`. -/
theorem tail1_covers (l : List Row) :
    ∀ q ∈ l, ∃ r, r ∈ tail1ByState l ∧ r.state = q.state := by
  induction l with
  | nil => simp
  | cons x xs ih =>
    intro q hq
    unfold tail1ByState
    by_cases h : xs.any (fun y => decide (y.state = x.state)) = true
    · rw [if_pos h]
      rcases List.mem_cons.mp hq with rfl | hq'
      · rcases List.any_eq_true.mp h with ⟨y, hy, hys⟩
        simp only [decide_eq_true_eq] at hys
        rcases ih y hy with ⟨r, hr, hrs⟩
        exact ⟨r, hr, by rw [hrs, hys]⟩
      · exact ih q hq'
    · rw [if_neg h]
      rcases List.mem_cons.mp hq with rfl | hq'
      · exact ⟨q, List.mem_cons_self _ _, rfl⟩
      · rcases ih q hq' with ⟨r, hr, hrs⟩
        exact ⟨r, List.mem_cons_of_mem x hr, hrs⟩

/-- Two regions whose latest rows tie on `inflation_yoy`; region "B"'s
latest row carries the earlier date. -/
def ct2 : List Row := [⟨"A", 2, 100, FV.fin 5⟩, ⟨"B", 1, 100, FV.fin 5⟩]

/-- C2 counterexample: `latest_state` does NOT break `inflation_yoy` ties
by region name.  On `ct2` both regions tie, yet the output lists "B"
before "A": the order of ties is the one left by the date sort, so no
pairwise tie-break-by-name ordering holds.  (`src/app.py` line 181 sorts
by `inflation_yoy` only.) -/
theorem C2_cex_no_name_tiebreak :
    ¬ (latest_state ct2).Pairwise (fun a b =>
        a.inflation_yoy = b.inflation_yoy →
          (a.state = b.state ∨ strLt a.state b.state = true)) := by
  intro hp
  have hAB : (("A" : String) = "B") = False := eq_false (by decide)
  have hBA : (("B" : String) = "A") = False := eq_false (by decide)
  have hout : latest_state ct2 =
      [⟨"B", 1, 100, FV.fin 5⟩, ⟨"A", 2, 100, FV.fin 5⟩] := by
    norm_num [latest_state, ct2, dropna, FV.isNan, isort, insertLe, dateLe,
      inflLe, fvLe, tail1ByState, hAB, hBA]
  rw [hout] at hp
  rcases List.pairwise_cons.mp hp with ⟨hpair, -⟩
  have hcons := hpair _ (List.mem_singleton_self _) rfl
  rcases hcons with h | h
  · exact absurd h (by decide)
  · exact absurd h (by decide)

/-- C2 amended: `latest_state` drops `NaN` rows, keeps exactly the
chronologically last remaining row of each region (for a table with at
most one row per region and date), returns each region at most once, and
orders the result ascending by `inflation_yoy`; it always succeeds and
maps the empty table to the empty sequence.  Ties in `inflation_yoy` are
left in the order produced by the date sort — they are NOT re-broken by
region name.  (`src/app.py` lines 176-182.) -/
theorem C2_latest_all_ranking (t : List Row)
    (hWF : t.Pairwise (fun a b => a.state = b.state → a.date ≠ b.date)) :
    (∀ r ∈ latest_state t, r.inflation_yoy ≠ FV.nan ∧ r ∈ dropna t ∧
      (∀ q ∈ dropna t, q.state = r.state →
        q.date ≤ r.date ∧ (q ≠ r → q.date < r.date))) ∧
    (∀ q ∈ dropna t, ∃ r, r ∈ latest_state t ∧ r.state = q.state) ∧
    ((latest_state t).map (fun r => r.state)).Nodup ∧
    (latest_state t).Pairwise
      (fun a b => fvLe a.inflation_yoy b.inflation_yoy = true) ∧
    (t = [] → latest_state t = []) := by
  have hperm1 : List.Perm (isort dateLe (dropna t)) (dropna t) := isort_perm _ _
  have hsortL : (isort dateLe (dropna t)).Pairwise (fun a b => a.date ≤ b.date) :=
    (isort_pairwise dateLe dateLe_total dateLe_trans (dropna t)).imp
      (fun h => by simpa [dateLe] using h)
  have hperm2 : List.Perm (latest_state t)
      (tail1ByState (isort dateLe (dropna t))) := isort_perm _ _
  refine ⟨?_, ?_, ?_, ?_, ?_⟩
  · intro r hr
    have hrt : r ∈ tail1ByState (isort dateLe (dropna t)) := hperm2.mem_iff.mp hr
    have hrL : r ∈ isort dateLe (dropna t) :=
      List.Sublist.mem hrt (tail1_sublist _)
    have hrd : r ∈ dropna t := hperm1.mem_iff.mp hrL
    have hnn : r.inflation_yoy ≠ FV.nan := (mem_dropna.mp hrd).2
    refine ⟨hnn, hrd, ?_⟩
    intro q hq hqs
    have hqL : q ∈ isort dateLe (dropna t) := hperm1.mem_iff.mpr hq
    have hle : q.date ≤ r.date := tail1_max_date _ hsortL r hrt q hqL hqs
    refine ⟨hle, ?_⟩
    intro hne
    have hsym : Symmetric (fun a b : Row => a.state = b.state → a.date ≠ b.date) := by
      intro a b hab hba hd
      exact hab hba.symm hd.symm
    have hqt : q ∈ t := (mem_dropna.mp hq).1
    have hrt' : r ∈ t := (mem_dropna.mp hrd).1
    have hdne : q.date ≠ r.date := hWF.forall hsym hqt hrt' hne hqs
    omega
  · intro q hq
    have hqL : q ∈ isort dateLe (dropna t) := hperm1.mem_iff.mpr hq
    rcases tail1_covers _ q hqL with ⟨r, hr, hrs⟩
    exact ⟨r, hperm2.mem_iff.mpr hr, hrs⟩
  · have hnd := tail1_nodup_states (isort dateLe (dropna t))
    exact ((hperm2.map (fun r => r.state)).nodup_iff).mpr hnd
  · exact (isort_pairwise inflLe inflLe_total inflLe_trans _).imp (fun h => h)
  · intro ht
    subst ht
    rfl

/-- A well-formed three-row table: two regions, distinct dates within
each region, one `NaN` row. -/
def wt2 : List Row :=
  [⟨"A", 1, 100, FV.nan⟩, ⟨"A", 2, 100, FV.fin 2⟩, ⟨"B", 1, 100, FV.fin 1⟩]

theorem C2_latest_all_ranking_witness :
    ((latest_state wt2).map (fun r => r.state)).Nodup ∧
    (latest_state wt2).Pairwise
      (fun a b => fvLe a.inflation_yoy b.inflation_yoy = true) :=
  ⟨(C2_latest_all_ranking wt2 (by decide)).2.2.1,
   (C2_latest_all_ranking wt2 (by decide)).2.2.2.1⟩

-- ===== C7: concrete two-region scenario =====

theorem getD_cons_one {α : Type} (a : α) (l : List α) (d : α) :
    (a :: l).getD 1 d = l.getD 0 d := rfl

theorem getD_cons_two {α : Type} (a : α) (l : List α) (d : α) :
    (a :: l).getD 2 d = l.getD 1 d := rfl

/-- Region "A": 15 monthly observations, index linearly increasing from
100. -/
def rawA : List RawRow :=
  [⟨"A", 0, "overall", 100⟩, ⟨"A", 1, "overall", 101⟩, ⟨"A", 2, "overall", 102⟩,
   ⟨"A", 3, "overall", 103⟩, ⟨"A", 4, "overall", 104⟩, ⟨"A", 5, "overall", 105⟩,
   ⟨"A", 6, "overall", 106⟩, ⟨"A", 7, "overall", 107⟩, ⟨"A", 8, "overall", 108⟩,
   ⟨"A", 9, "overall", 109⟩, ⟨"A", 10, "overall", 110⟩, ⟨"A", 11, "overall", 111⟩,
   ⟨"A", 12, "overall", 112⟩, ⟨"A", 13, "overall", 113⟩, ⟨"A", 14, "overall", 114⟩]

/-- Region "B": 15 monthly observations, index constant at 100. -/
def rawB : List RawRow :=
  [⟨"B", 0, "overall", 100⟩, ⟨"B", 1, "overall", 100⟩, ⟨"B", 2, "overall", 100⟩,
   ⟨"B", 3, "overall", 100⟩, ⟨"B", 4, "overall", 100⟩, ⟨"B", 5, "overall", 100⟩,
   ⟨"B", 6, "overall", 100⟩, ⟨"B", 7, "overall", 100⟩, ⟨"B", 8, "overall", 100⟩,
   ⟨"B", 9, "overall", 100⟩, ⟨"B", 10, "overall", 100⟩, ⟨"B", 11, "overall", 100⟩,
   ⟨"B", 12, "overall", 100⟩, ⟨"B", 13, "overall", 100⟩, ⟨"B", 14, "overall", 100⟩]

/-- The raw CSV of the scenario: both regions. -/
def rawAB : List RawRow := rawA ++ rawB

/-- The expected enriched table for `rawAB`. -/
def annAB : List Row :=
  [⟨"A", 0, 100, FV.nan⟩, ⟨"A", 1, 101, FV.nan⟩, ⟨"A", 2, 102, FV.nan⟩,
   ⟨"A", 3, 103, FV.nan⟩, ⟨"A", 4, 104, FV.nan⟩, ⟨"A", 5, 105, FV.nan⟩,
   ⟨"A", 6, 106, FV.nan⟩, ⟨"A", 7, 107, FV.nan⟩, ⟨"A", 8, 108, FV.nan⟩,
   ⟨"A", 9, 109, FV.nan⟩, ⟨"A", 10, 110, FV.nan⟩, ⟨"A", 11, 111, FV.nan⟩,
   ⟨"A", 12, 112, FV.fin 12⟩, ⟨"A", 13, 113, FV.fin (1200 / 101)⟩,
   ⟨"A", 14, 114, FV.fin (200 / 17)⟩,
   ⟨"B", 0, 100, FV.nan⟩, ⟨"B", 1, 100, FV.nan⟩, ⟨"B", 2, 100, FV.nan⟩,
   ⟨"B", 3, 100, FV.nan⟩, ⟨"B", 4, 100, FV.nan⟩, ⟨"B", 5, 100, FV.nan⟩,
   ⟨"B", 6, 100, FV.nan⟩, ⟨"B", 7, 100, FV.nan⟩, ⟨"B", 8, 100, FV.nan⟩,
   ⟨"B", 9, 100, FV.nan⟩, ⟨"B", 10, 100, FV.nan⟩, ⟨"B", 11, 100, FV.nan⟩,
   ⟨"B", 12, 100, FV.fin 0⟩, ⟨"B", 13, 100, FV.fin 0⟩, ⟨"B", 14, 100, FV.fin 0⟩]

set_option maxHeartbeats 2000000 in
/-- C7: for two regions with 15 monthly rows each, region "A"'s index
linearly increasing from 100 and region "B"'s constant at 100, the
pipeline gives "A" a strictly positive latest `inflation_yoy` (200/17),
gives "B" exactly 0, and `latest_state` orders the output `[B, A]`.
(`src/app.py` lines 41-47 and 176-182.) -/
theorem C7_two_region_scenario :
    (latest_state (annotate (normalizeTable rawAB))).map
        (fun r => (r.state, r.inflation_yoy)) =
      [("B", FV.fin 0), ("A", FV.fin (200 / 17))] ∧
    (0 : ℚ) < 200 / 17 := by
  have heAA : (("A" : String) = "A") = True := eq_true rfl
  have heBB : (("B" : String) = "B") = True := eq_true rfl
  have heAB : (("A" : String) = "B") = False := eq_false (by decide)
  have heBA : (("B" : String) = "A") = False := eq_false (by decide)
  have hov : (("overall" : String) = "overall") = True := eq_true rfl
  have hsAA : strLt "A" "A" = false := by decide
  have hsAB : strLt "A" "B" = true := by decide
  have hsBA : strLt "B" "A" = false := by decide
  have hsBB : strLt "B" "B" = false := by decide
  have hnorm : normalizeTable rawAB = rawAB := by
    norm_num [normalizeTable, rawAB, rawA, rawB, isort, insertLe, nkLe,
      hsAA, hsAB, hsBA, hsBB, heAA, heAB, heBA, heBB, hov]
  have hann : annotate rawAB = annAB := by
    norm_num [annotate, annotateAux, mkAnnRow, inflOf, rawAB, rawA, rawB,
      annAB, fvDiv, fvSub, fvMul, heAA, heAB, heBA, heBB,
      getD_cons_one, getD_cons_two]
  have hls : latest_state annAB =
      [⟨"B", 14, 100, FV.fin 0⟩, ⟨"A", 14, 114, FV.fin (200 / 17)⟩] := by
    norm_num [latest_state, annAB, dropna, FV.isNan, isort, insertLe,
      dateLe, inflLe, fvLe, tail1ByState, heAA, heAB, heBA, heBB]
  refine ⟨?_, by norm_num⟩
  rw [hnorm, hann, hls]
  rfl
